import Mathlib

/-!
Verification of the bittorrent client core: a shallow embedding of the
bencode codec (src/lib.rs), the peer session operations (src/peer.rs),
the piece scheduler arithmetic and collector (src/torrent.rs), and the
compact peer-list codec (src/tracker.rs).  Rust strings are modelled as
lists of bytes (List Nat, each < 256 on real inputs); machine integers
are modelled as Nat/Int with explicit range checks where the source can
overflow or panic.
-/

/-- Decimal digit bytes of a natural number, least significant first.
The fuel argument is always called with fuel > n, so the fallback is
never reached; this models the digits of the Rust to_string output. -/
def natDigitsRevAux : Nat → Nat → List Nat
  | 0, _ => []
  | fuel + 1, n => if n < 10 then [48 + n] else (48 + n % 10) :: natDigitsRevAux fuel (n / 10)

/-- Byte representation of the Rust usize to_string output. -/
def natToBytes (n : Nat) : List Nat :=
  (natDigitsRevAux (n + 1) n).reverse

/-- Number of bytes of the decimal representation of n; models the Rust
expression n.to_string().len(). -/
def numDigits (n : Nat) : Nat :=
  (natToBytes n).length

/-- Byte representation of the Rust isize to_string output (45 is the
minus sign). -/
def intToBytes (n : Int) : List Nat :=
  if n < 0 then 45 :: natToBytes n.natAbs else natToBytes n.natAbs

/-- Number of bytes of the decimal representation of an isize; models
the Rust expression n.to_string().len() on signed values. -/
def intStrLen (n : Int) : Nat :=
  (intToBytes n).length

/-- Value of a list of ASCII digit bytes, most significant first. -/
def digitsToNat (s : List Nat) : Nat :=
  s.foldl (fun acc b => acc * 10 + (b - 48)) 0

/-- Is the byte an ASCII decimal digit. -/
def isDigitByte (b : Nat) : Prop :=
  48 ≤ b ∧ b ≤ 57

instance (b : Nat) : Decidable (isDigitByte b) := by
  unfold isDigitByte; infer_instance

/-- Model of str::parse::<usize>: an optional leading plus sign (43),
then a nonempty run of digits whose value fits in 64 bits. -/
def parseUsize (s : List Nat) : Option Nat :=
  let digits := match s with
    | 43 :: rest => rest
    | _ => s
  if digits.isEmpty then none
  else if digits.all (fun b => decide (isDigitByte b)) then
    let n := digitsToNat digits
    if n < 2 ^ 64 then some n else none
  else none

/-- Model of str::parse::<isize>: an optional sign (43 plus, 45 minus),
then a nonempty run of digits, with the 64-bit signed range check. -/
def parseIsize (s : List Nat) : Option Int :=
  match s with
  | 45 :: rest =>
    if rest.isEmpty then none
    else if rest.all (fun b => decide (isDigitByte b)) then
      let n := digitsToNat rest
      if n ≤ 2 ^ 63 then some (-(n : Int)) else none
    else none
  | 43 :: rest =>
    if rest.isEmpty then none
    else if rest.all (fun b => decide (isDigitByte b)) then
      let n := digitsToNat rest
      if n < 2 ^ 63 then some (n : Int) else none
    else none
  | _ =>
    if s.isEmpty then none
    else if s.all (fun b => decide (isDigitByte b)) then
      let n := digitsToNat s
      if n < 2 ^ 63 then some (n : Int) else none
    else none

/-- Model of str::split_once: split at the first occurrence of the
separator byte, which is dropped. -/
def splitOnceByte (sep : Nat) : List Nat → Option (List Nat × List Nat)
  | [] => none
  | b :: rest =>
    if b = sep then some ([], rest)
    else
      match splitOnceByte sep rest with
      | none => none
      | some (pre, post) => some (b :: pre, post)

/-- Model of str::is_char_boundary at byte position k: true at the end
of the string and at any position whose byte is not a UTF-8
continuation byte (128..191). -/
def isCharBoundary (s : List Nat) (k : Nat) : Bool :=
  decide (k = s.length) ||
    (decide (k < s.length) && !(decide (128 ≤ s.getD k 0) && decide (s.getD k 0 < 192)))

/-- Model of str::get(..n): the first n bytes, or none when n is out of
bounds or not a character boundary. -/
def strGetTo (s : List Nat) (n : Nat) : Option (List Nat) :=
  if isCharBoundary s n then some (s.take n) else none

/-- Model of str::get(a..b): bytes a..b, or none when either end is out
of bounds or not a character boundary (a ≤ b assumed by the callers). -/
def strSlice (s : List Nat) (a b : Nat) : Option (List Nat) :=
  if isCharBoundary s a && isCharBoundary s b then some ((s.take b).drop a) else none

/-- Model of the Rust slice expression s[k..], which panics (none here)
when k is out of bounds or not a character boundary. -/
def sliceFrom (s : List Nat) (k : Nat) : Option (List Nat) :=
  if isCharBoundary s k then some (s.drop k) else none

mutual
/-- The decoded bencode value (src/lib.rs, enum Bencode); strings are
byte lists, dictionaries are association lists standing for the
HashMap contents. -/
inductive Bencode where
  | str : List Nat → Bencode
  | num : Int → Bencode
  | list : BList → Bencode
  | dict : BDict → Bencode

/-- Sequence of bencode values (the Vec in the List branch). -/
inductive BList where
  | nil : BList
  | cons : Bencode → BList → BList

/-- Key-value sequence of bencode values (the HashMap contents in the
Dictionary branch). -/
inductive BDict where
  | nil : BDict
  | cons : List Nat → Bencode → BDict → BDict
end

/-- The decode error type (src/lib.rs, enum BencodeError); the source
spelling MissingDelimeter is kept. -/
inductive BencodeError where
  | EmptyInput : BencodeError
  | MissingDelimeter : BencodeError
  | InvalidNumber : BencodeError
  | InvalidLength : BencodeError
  | InvalidKey : BencodeError
deriving DecidableEq

/-- Outcome of running Bencode::new: a value, a recoverable error, a
panic (unreachable! or a slice/expect failure), or fuel exhaustion of
the model (never reached for fuel larger than the input length). -/
inductive DecodeResult where
  | ok : Bencode → DecodeResult
  | err : BencodeError → DecodeResult
  | panic : DecodeResult
  | fuelOut : DecodeResult

mutual
/-- Byte width the value claims for itself when re-encoded
(src/lib.rs, Bencode::encoded_length).  Note the Dictionary arm charges
k.len() + 2 for a key, a one-byte length prefix plus the colon. -/
def Bencode.encoded_length : Bencode → Nat
  | .str s => s.length + numDigits s.length + 1
  | .num n => intStrLen n + 2
  | .list l => encodedLengthList l + 2
  | .dict d => encodedLengthDict d + 2

/-- Sum of encoded_length over a list of values. -/
def encodedLengthList : BList → Nat
  | .nil => 0
  | .cons v rest => v.encoded_length + encodedLengthList rest

/-- Sum of the per-entry widths of a dictionary, k.len() + 2 plus the
encoded_length of the value, as in the source. -/
def encodedLengthDict : BDict → Nat
  | .nil => 0
  | .cons k v rest => k.length + 2 + v.encoded_length + encodedLengthDict rest
end

/-- Append a value at the end, modelling Vec::push order. -/
def BList.snoc : BList → Bencode → BList
  | .nil, v => .cons v .nil
  | .cons x xs, v => .cons x (xs.snoc v)

/-- Model of HashMap::insert: replace the value of an existing key,
otherwise add the entry. -/
def BDict.insertHM : BDict → List Nat → Bencode → BDict
  | .nil, k, v => .cons k v .nil
  | .cons k0 v0 rest, k, v =>
    if k = k0 then .cons k0 v rest else .cons k0 v0 (rest.insertHM k v)

mutual
/-- Model of Bencode::new (src/lib.rs), dispatching on the first byte:
48..57 digit, 105 the letter i, 108 the letter l, 100 the letter d.
Any other leading byte reaches the unreachable! arm and panics.  The
fuel argument only bounds the recursion depth of the model. -/
def Bencode.new : Nat → List Nat → DecodeResult
  | 0, _ => .fuelOut
  | fuel + 1, s =>
    match s with
    | [] => .err .EmptyInput
    | b :: _ =>
      if isDigitByte b then
        match splitOnceByte 58 s with
        | none => .err .MissingDelimeter
        | some (pre, post) =>
          match parseUsize pre with
          | none => .err .InvalidNumber
          | some n =>
            match strGetTo post n with
            | none => .err .InvalidLength
            | some t => .ok (.str t)
      else if b = 105 then
        match s.findIdx? (fun c => c = 101) with
        | none => .err .MissingDelimeter
        | some e =>
          match strSlice s 1 e with
          | none => .panic
          | some sub =>
            match parseIsize sub with
            | none => .err .InvalidNumber
            | some n => .ok (.num n)
      else if b = 108 then decodeListLoop fuel .nil (s.drop 1)
      else if b = 100 then decodeDictLoop fuel .nil (s.drop 1)
      else .panic

/-- The loop of the List branch of Bencode::new: stop at a bare 101
(the letter e), otherwise decode one value, advance by its
encoded_length (panicking like the Rust slice when that is not a
character boundary), and push it. -/
def decodeListLoop : Nat → BList → List Nat → DecodeResult
  | 0, _, _ => .fuelOut
  | fuel + 1, acc, rest =>
    match rest with
    | [] => .err .MissingDelimeter
    | b :: _ =>
      if b = 101 then .ok (.list acc)
      else
        match Bencode.new fuel rest with
        | .ok v =>
          match sliceFrom rest v.encoded_length with
          | none => .panic
          | some rest2 => decodeListLoop fuel (acc.snoc v) rest2
        | r => r

/-- The loop of the Dictionary branch of Bencode::new: stop at a bare
101, otherwise decode a key (advance, then require it to be a string),
decode a value, advance, and insert the pair. -/
def decodeDictLoop : Nat → BDict → List Nat → DecodeResult
  | 0, _, _ => .fuelOut
  | fuel + 1, acc, rest =>
    match rest with
    | [] => .err .MissingDelimeter
    | b :: _ =>
      if b = 101 then .ok (.dict acc)
      else
        match Bencode.new fuel rest with
        | .ok k =>
          match sliceFrom rest k.encoded_length with
          | none => .panic
          | some rest2 =>
            match k with
            | .str key =>
              match Bencode.new fuel rest2 with
              | .ok v =>
                match sliceFrom rest2 v.encoded_length with
                | none => .panic
                | some rest3 => decodeDictLoop fuel (acc.insertHM key v) rest3
              | r => r
            | _ => .err .InvalidKey
        | r => r
end

mutual
/-- Modelled from the spec: the canonical bencode encoding (spec 4.1
Encode), byte strings as length, colon (58), bytes; integers as i
digits e (105, 101); lists and dictionaries bracketed by l/d and e,
dictionary entries written in the stored order.  The repository has no
own encoder for Bencode (serialization goes through an external
crate), so this definition follows the format description. -/
def canonicalEncode : Bencode → List Nat
  | .str s => natToBytes s.length ++ 58 :: s
  | .num n => 105 :: (intToBytes n ++ [101])
  | .list l => 108 :: (canonicalEncodeList l ++ [101])
  | .dict d => 100 :: (canonicalEncodeDict d ++ [101])

/-- Concatenated canonical encodings of the elements of a list. -/
def canonicalEncodeList : BList → List Nat
  | .nil => []
  | .cons v rest => canonicalEncode v ++ canonicalEncodeList rest

/-- Concatenated canonical encodings of the entries of a dictionary,
each entry a byte-string key followed by the value. -/
def canonicalEncodeDict : BDict → List Nat
  | .nil => []
  | .cons k v rest => (natToBytes k.length ++ 58 :: k) ++ canonicalEncode v ++ canonicalEncodeDict rest
end

mutual
/-- Every dictionary key occurring in the value is at most 9 bytes
long, so that its decimal length prefix is a single digit. -/
def Bencode.keysShort : Bencode → Bool
  | .str _ => true
  | .num _ => true
  | .list l => keysShortList l
  | .dict d => keysShortDict d

/-- keysShort on every element of a list. -/
def keysShortList : BList → Bool
  | .nil => true
  | .cons v rest => v.keysShort && keysShortList rest

/-- keysShort on every entry of a dictionary, including the length
bound on the keys of this dictionary itself. -/
def keysShortDict : BDict → Bool
  | .nil => true
  | .cons k v rest => decide (k.length ≤ 9) && v.keysShort && keysShortDict rest
end

/-- Binary digit list of a byte, most significant first, with no
leading zeros (0 renders as a single 0); models format b of the Rust
source, digit by digit.  The fuel argument is always called with
fuel > n. -/
def binDigitsAux : Nat → Nat → List Nat
  | 0, _ => []
  | fuel + 1, n => if n < 2 then [n] else binDigitsAux fuel (n / 2) ++ [n % 2]

/-- Binary digit list of format b applied to one byte. -/
def formatBin (n : Nat) : List Nat :=
  binDigitsAux (n + 1) n

/-- Model of the advertised-piece computation in Peer::bitfield
(src/peer.rs lines 75-81): format every payload byte in binary without
leading zeros, concatenate the digits, enumerate them, and keep the
positions holding a 1. -/
def Peer.bitfield (payload : List Nat) : List Nat :=
  ((payload.flatMap formatBin).enum.filterMap
    (fun p => if p.2 = 1 then some p.1 else none))

/-- Modelled from the spec: the wire-convention reading of a bitfield
payload (spec 4.3), bit i set, bits numbered most-significant-bit
first within each successive byte, meaning the peer has piece i. -/
def bitfieldSpecPieces (payload : List Nat) : List Nat :=
  (List.range (8 * payload.length)).filter
    (fun i => payload.getD (i / 8) 0 / 2 ^ (7 - i % 8) % 2 = 1)

/-- Modelled from the spec: the peer message tags recognized by this
core (spec 4.2); message.rs is not under src/. -/
inductive MessageTag where
  | bitfield : MessageTag
  | interested : MessageTag
  | unchoke : MessageTag
  | request : MessageTag
  | piece : MessageTag
  | other : MessageTag
deriving DecidableEq

/-- Modelled from the spec: a framed peer message, a tag and a raw
payload (spec 4.2); message.rs is not under src/. -/
structure Message where
  tag : MessageTag
  payload : List Nat

/-- Modelled from the spec: the Request frame fields, piece index,
byte offset and length (spec 4.2); message.rs is not under src/. -/
structure Request where
  index : Nat
  begin_ : Nat
  length : Nat

/-- Big-endian 32-bit value of four bytes. -/
def be32 (a b c d : Nat) : Nat :=
  ((a * 256 + b) * 256 + c) * 256 + d

/-- Modelled from the spec: Piece::ref_from_bytes on the payload of a
Piece message, a 4-byte big-endian index, a 4-byte big-endian offset,
then the raw block (spec 4.2, length implied by frame length minus 8);
fails when fewer than 8 bytes are present.  message.rs is not under
src/. -/
def pieceRefFromBytes : List Nat → Option (Nat × Nat × List Nat)
  | a :: b :: c :: d :: e :: f :: g :: h :: block => some (be32 a b c d, be32 e f g h, block)
  | _ => none

/-- Outcome of Peer::request: success, a protocol violation reported
through ensure, or a panic of the expect on ref_from_bytes. -/
inductive RequestOutcome where
  | ok : RequestOutcome
  | protocolError : RequestOutcome
  | panicked : RequestOutcome
deriving DecidableEq

/-- Model of the receive half of Peer::request (src/peer.rs lines
137-153) applied to the next message received after the Request was
sent: require the Piece tag, a nonempty payload, parse the payload
(the expect panics when it is shorter than 8 bytes), require index and
offset to equal the request fields, and only then append the block to
the accumulator. -/
def Peer.request (req : Request) (msg : Message) (blocks : List Nat) :
    RequestOutcome × List Nat :=
  if msg.tag ≠ .piece then (.protocolError, blocks)
  else if msg.payload.isEmpty then (.protocolError, blocks)
  else
    match pieceRefFromBytes msg.payload with
    | none => (.panicked, blocks)
    | some (idx, bgn, block) =>
      if idx ≠ req.index then (.protocolError, blocks)
      else if bgn ≠ req.begin_ then (.protocolError, blocks)
      else (.ok, blocks ++ block)

/-- A completed piece as delivered to the collector
(src/torrent.rs, struct DownloadedPiece). -/
structure DownloadedPiece where
  number : Nat
  blocks : List Nat
deriving DecidableEq

/-- Concatenation of the block bytes of a list of pieces in list
order; models the flat_map over downloaded_piece.blocks. -/
def flattenBlocks : List DownloadedPiece → List Nat
  | [] => []
  | p :: rest => p.blocks ++ flattenBlocks rest

/-- Model of the collector tail of Torrent::download_pieces
(src/torrent.rs lines 185-191): given the pieces in arrival order,
sort them by piece number (sort_by is a stable ascending sort) and
concatenate their bytes. -/
def download_pieces_collect (arrived : List DownloadedPiece) : List Nat :=
  flattenBlocks (arrived.mergeSort (fun a b => decide (a.number ≤ b.number)))

/-- Maximum block size (src/torrent.rs, BLOCK_MAX = 1 << 14). -/
def BLOCK_MAX : Nat := 1 <<< 14

/-- Model of piece_size (src/torrent.rs lines 297-299): the full piece
length except for the final piece, which gets what remains of the
total length.  Subtraction is the truncating usize subtraction, which
never underflows for a valid index. -/
def piece_size (piece length piece_length : Nat) : Nat :=
  min piece_length (length - piece_length * piece)

/-- Model of the nblocks computation of the download loop
(src/torrent.rs line 142): piece_size.div_ceil(BLOCK_MAX). -/
def nblocks (piece_size : Nat) : Nat :=
  (piece_size + BLOCK_MAX - 1) / BLOCK_MAX

/-- Model of the block_size computation of the download loop
(src/torrent.rs line 147). -/
def block_size (piece_size block : Nat) : Nat :=
  min BLOCK_MAX (piece_size - BLOCK_MAX * block)

/-- Model of std::net::SocketAddrV4 as stored by the tracker decoder:
the four IPv4 octets and the 16-bit port. -/
structure SocketAddrV4 where
  ipa : Nat
  ipb : Nat
  ipc : Nat
  ipd : Nat
  port : Nat
deriving DecidableEq

/-- The per-chunk loop of PeersVisitor::visit_bytes
(src/tracker.rs lines 98-106): consume the bytes six at a time
(chunks_exact drops any shorter remainder), the first four bytes being
the IPv4 octets and the last two the big-endian port. -/
def peersFromBytes : List Nat → List SocketAddrV4
  | a :: b :: c :: d :: e :: f :: rest => ⟨a, b, c, d, e * 256 + f⟩ :: peersFromBytes rest
  | _ => []

/-- Model of PeersVisitor::visit_bytes (src/tracker.rs lines 90-109):
reject inputs whose length is not a multiple of six, otherwise decode
the consecutive 6-byte entries. -/
def visit_bytes (v : List Nat) : Option (List SocketAddrV4) :=
  if v.length % 6 = 0 then some (peersFromBytes v) else none

/-- Model of Peers::serialize (src/tracker.rs lines 56-69): for each
peer append the four IPv4 octets and the two big-endian port bytes. -/
def Peers.serialize : List SocketAddrV4 → List Nat
  | [] => []
  | p :: rest => [p.ipa, p.ipb, p.ipc, p.ipd, p.port / 256, p.port % 256] ++ Peers.serialize rest

/-- A one-digit number has a one-byte decimal representation. -/
theorem numDigits_of_le_9 (n : Nat) (h : n ≤ 9) : numDigits n = 1 := by
  unfold numDigits natToBytes natDigitsRevAux
  rw [if_pos (by omega)]
  rfl

mutual
/-- On values whose dictionary keys are all at most 9 bytes long, the
re-derived width encoded_length agrees with the length of the
canonical encoding. -/
theorem encodedLength_eq_canonical : ∀ v : Bencode, v.keysShort = true →
    v.encoded_length = (canonicalEncode v).length
  | .str s, _ => by
    simp [Bencode.encoded_length, canonicalEncode, numDigits]
    omega
  | .num n, _ => by
    simp [Bencode.encoded_length, canonicalEncode, intStrLen]
  | .list l, h => by
    have h1 : keysShortList l = true := by simpa [Bencode.keysShort] using h
    have e1 := encodedLengthList_eq_canonical l h1
    simp [Bencode.encoded_length, canonicalEncode, e1]
  | .dict d, h => by
    have h1 : keysShortDict d = true := by simpa [Bencode.keysShort] using h
    have e1 := encodedLengthDict_eq_canonical d h1
    simp [Bencode.encoded_length, canonicalEncode, e1]

/-- List version of encodedLength_eq_canonical. -/
theorem encodedLengthList_eq_canonical : ∀ l : BList, keysShortList l = true →
    encodedLengthList l = (canonicalEncodeList l).length
  | .nil, _ => rfl
  | .cons v rest, h => by
    rw [keysShortList, Bool.and_eq_true] at h
    have e1 := encodedLength_eq_canonical v h.1
    have e2 := encodedLengthList_eq_canonical rest h.2
    simp [encodedLengthList, canonicalEncodeList, e1, e2]

/-- Dictionary version of encodedLength_eq_canonical; this is where
the one-digit length prefix of each key is needed. -/
theorem encodedLengthDict_eq_canonical : ∀ d : BDict, keysShortDict d = true →
    encodedLengthDict d = (canonicalEncodeDict d).length
  | .nil, _ => rfl
  | .cons k v rest, h => by
    rw [keysShortDict, Bool.and_eq_true, Bool.and_eq_true] at h
    have e1 := encodedLength_eq_canonical v h.1.2
    have e2 := encodedLengthDict_eq_canonical rest h.2
    have e3 := numDigits_of_le_9 k.length (by simpa using h.1.1)
    simp [numDigits] at e3
    simp [encodedLengthDict, canonicalEncodeDict, e1, e2, e3]
    omega
end

/-- Claim C2 (amended): for every value decoded from a canonical
encoding in which every dictionary key is at most 9 bytes long, the
byte width re-derived by encoded_length equals the number of bytes of
the canonical encoding of that value, so the list and dictionary
decoders advance exactly to the start of the next element; a
dictionary key of 10 or more bytes makes encoded_length undercount. -/
theorem c2_encoded_length_canonical (v : Bencode) (h : v.keysShort = true) :
    v.encoded_length = (canonicalEncode v).length :=
  encodedLength_eq_canonical v h

/-- Witness for claim C2 at a concrete dictionary with a 1-byte key. -/
theorem c2_encoded_length_witness :
    Bencode.keysShort (.dict (.cons [107] (.num 52) .nil)) = true ∧
    Bencode.encoded_length (.dict (.cons [107] (.num 52) .nil)) =
      (canonicalEncode (.dict (.cons [107] (.num 52) .nil))).length :=
  ⟨rfl, c2_encoded_length_canonical _ rfl⟩

/-- Claim C2 counterexample: the canonical input d10:abcdefghiji1ee
(18 bytes, a dictionary with the 10-byte key abcdefghij mapped to the
integer 1, written here as its byte values) decodes successfully, but
encoded_length of the decoded value re-derives 17 bytes, not the 18
bytes the encoding occupied, because the dictionary arm charges a
one-byte length prefix for every key. -/
theorem c2_counterexample :
    Bencode.new 9 [100, 49, 48, 58, 97, 98, 99, 100, 101, 102, 103, 104, 105, 106, 105, 49, 101, 101] =
      .ok (.dict (.cons [97, 98, 99, 100, 101, 102, 103, 104, 105, 106] (.num 1) .nil)) ∧
    Bencode.encoded_length
      (.dict (.cons [97, 98, 99, 100, 101, 102, 103, 104, 105, 106] (.num 1) .nil)) = 17 ∧
    List.length [100, 49, 48, 58, 97, 98, 99, 100, 101, 102, 103, 104, 105, 106, 105, 49, 101, 101] = 18 :=
  ⟨rfl, rfl, rfl⟩

/-- Claim C1: evaluation of the advertised-piece decoding at the
bitfield payload consisting of the single byte 1.  The wire convention
(bit i, most-significant-bit first) has exactly piece 7 set, but the
source formats the byte in binary without leading zeros, so it decodes
the set as containing piece 0. -/
theorem c1_bitfield_bug :
    Peer.bitfield [1] = [0] ∧ bitfieldSpecPieces [1] = [7] ∧
    Peer.bitfield [1] ≠ bitfieldSpecPieces [1] := by
  decide

/-- Claim C3 counterexample: an input whose leading byte is 120 (the
letter x) drives Bencode::new into the unreachable! arm, a panic, not
a recoverable error returned to the caller. -/
theorem c3_counterexample :
    Bencode.new 1 [120] = DecodeResult.panic := rfl

/-- Claim C3 (amended): the decoder dispatch reports empty input as
EmptyInput, and an input whose leading byte is not an ASCII digit, i,
l, or d panics via unreachable! (an unrecoverable format violation)
instead of returning a recoverable failure to the caller. -/
theorem c3_dispatch (fuel b : Nat) (s : List Nat)
    (hd : ¬ isDigitByte b) (hi : b ≠ 105) (hl : b ≠ 108) (hdd : b ≠ 100) :
    Bencode.new (fuel + 1) (b :: s) = .panic ∧
    Bencode.new (fuel + 1) [] = .err .EmptyInput := by
  constructor
  · simp [Bencode.new, hd, hi, hl, hdd]
  · simp [Bencode.new]

/-- Witness for claim C3 at the leading byte 58 (a colon). -/
theorem c3_dispatch_witness :
    ¬ isDigitByte 58 ∧
      (Bencode.new 1 [58, 53] = .panic ∧ Bencode.new 1 [] = .err .EmptyInput) :=
  ⟨by decide, c3_dispatch 0 58 [53] (by decide) (by decide) (by decide) (by decide)⟩

/-- split_once finds nothing exactly when the separator byte is
absent. -/
theorem splitOnceByte_none_iff (sep : Nat) (l : List Nat) :
    splitOnceByte sep l = none ↔ sep ∉ l := by
  induction l with
  | nil => simp [splitOnceByte]
  | cons b rest ih =>
    by_cases hbs : b = sep
    · subst hbs; simp [splitOnceByte]
    · rcases hsp : splitOnceByte sep rest with _ | pp
      · simp only [splitOnceByte, if_neg hbs, hsp, List.mem_cons]
        simp only [hsp] at ih
        simp only [true_iff] at ih
        simp [ih]
        exact fun h => hbs h.symm
      · have hmem : sep ∈ rest := by
          by_contra hc
          simp [ih.mpr hc] at hsp
        simp only [splitOnceByte, if_neg hbs, hsp, List.mem_cons]
        simp [hmem]

/-- A byte position past the end of the string is not a character
boundary. -/
theorem isCharBoundary_false_of_gt (s : List Nat) (n : Nat) (h : s.length < n) :
    isCharBoundary s n = false := by
  simp [isCharBoundary]
  omega

/-- A character boundary lies within the string. -/
theorem le_length_of_isCharBoundary (s : List Nat) (n : Nat)
    (h : isCharBoundary s n = true) : n ≤ s.length := by
  simp [isCharBoundary] at h
  rcases h with h | h <;> omega

/-- Claim C9: on an input whose leading byte is an ASCII digit, the
decoder fails with MissingDelimeter when no colon is present, with
InvalidNumber when the bytes before the first colon do not parse as a
usize, with InvalidLength when fewer than the declared number of bytes
remain after the colon, and otherwise returns the byte string of
exactly the declared length. -/
theorem c9_string_branch (fuel b : Nat) (s : List Nat) (hb : isDigitByte b) :
    (58 ∉ b :: s → Bencode.new (fuel + 1) (b :: s) = .err .MissingDelimeter) ∧
    (∀ pre post, splitOnceByte 58 (b :: s) = some (pre, post) →
      (parseUsize pre = none → Bencode.new (fuel + 1) (b :: s) = .err .InvalidNumber) ∧
      (∀ n, parseUsize pre = some n →
        (post.length < n → Bencode.new (fuel + 1) (b :: s) = .err .InvalidLength) ∧
        (isCharBoundary post n = true →
          Bencode.new (fuel + 1) (b :: s) = .ok (.str (post.take n)) ∧
          (post.take n).length = n))) := by
  refine ⟨fun hmem => ?_,
    fun pre post hsp => ⟨fun hpu => ?_, fun n hn => ⟨fun hlen => ?_, fun hcb => ?_⟩⟩⟩
  · have h0 : splitOnceByte 58 (b :: s) = none := (splitOnceByte_none_iff 58 (b :: s)).mpr hmem
    simp [Bencode.new, hb, h0]
  · simp [Bencode.new, hb, hsp, hpu]
  · have h0 : strGetTo post n = none := by
      simp [strGetTo, isCharBoundary_false_of_gt post n hlen]
    simp [Bencode.new, hb, hsp, hn, h0]
  · have h0 : strGetTo post n = some (post.take n) := by simp [strGetTo, hcb]
    refine ⟨by simp [Bencode.new, hb, hsp, hn, h0], ?_⟩
    have := le_length_of_isCharBoundary post n hcb
    simp [List.length_take]
    omega

/-- Witness for claim C9: the four concrete behaviours, 5:hello
decoding to hello, 6:hello failing InvalidLength, 5hello failing
MissingDelimeter, 5a:hello failing InvalidNumber (inputs written as
byte values). -/
theorem c9_string_branch_witness :
    isDigitByte 53 ∧
    Bencode.new 1 [53, 58, 104, 101, 108, 108, 111] = .ok (.str [104, 101, 108, 108, 111]) ∧
    Bencode.new 1 [54, 58, 104, 101, 108, 108, 111] = .err .InvalidLength ∧
    Bencode.new 1 [53, 104, 101, 108, 108, 111] = .err .MissingDelimeter ∧
    Bencode.new 1 [53, 97, 58, 104, 101, 108, 108, 111] = .err .InvalidNumber := by
  refine ⟨by decide, ?_, ?_, ?_, ?_⟩
  · exact ((((c9_string_branch 0 53 [58, 104, 101, 108, 108, 111]
      (by decide)).2 [53] [104, 101, 108, 108, 111] rfl).2 5 (by decide)).2 (by decide)).1
  · exact (((c9_string_branch 0 54 [58, 104, 101, 108, 108, 111]
      (by decide)).2 [54] [104, 101, 108, 108, 111] rfl).2 6 (by decide)).1 (by decide)
  · exact (c9_string_branch 0 53 [104, 101, 108, 108, 111] (by decide)).1 (by decide)
  · exact ((c9_string_branch 0 53 [97, 58, 104, 101, 108, 108, 111]
      (by decide)).2 [53, 97] [104, 101, 108, 108, 111] rfl).1 (by decide)

/-- Claim C4: the block-request operation succeeds only when the next
received message has the Piece tag, a nonempty payload, and index and
offset fields equal to the request fields, in which case the block
bytes are appended to the caller-owned accumulator; a wrong tag, an
empty payload, or an index/offset mismatch yields a protocol-violation
error with the accumulator unchanged. -/
theorem c4_request (req : Request) (msg : Message) (blocks : List Nat) :
    ((Peer.request req msg blocks).1 = .ok →
      msg.tag = .piece ∧ msg.payload ≠ [] ∧
      ∃ block, pieceRefFromBytes msg.payload = some (req.index, req.begin_, block) ∧
        (Peer.request req msg blocks).2 = blocks ++ block) ∧
    (msg.tag ≠ .piece → Peer.request req msg blocks = (.protocolError, blocks)) ∧
    (msg.payload = [] → Peer.request req msg blocks = (.protocolError, blocks)) ∧
    (∀ idx bgn block, msg.tag = .piece →
      pieceRefFromBytes msg.payload = some (idx, bgn, block) →
      (¬ (idx = req.index ∧ bgn = req.begin_) →
        Peer.request req msg blocks = (.protocolError, blocks)) ∧
      (idx = req.index → bgn = req.begin_ →
        Peer.request req msg blocks = (.ok, blocks ++ block))) := by
  by_cases ht : msg.tag = MessageTag.piece
  · by_cases hp : msg.payload = []
    · have hrb : pieceRefFromBytes msg.payload = none := by rw [hp]; rfl
      simp [Peer.request, ht, hp, hrb, pieceRefFromBytes]
    · rcases hrb : pieceRefFromBytes msg.payload with _ | ⟨idx0, bgn0, block0⟩
      · simp [Peer.request, ht, hp, hrb, List.isEmpty_iff]
      · by_cases hi : idx0 = req.index
        · by_cases hg : bgn0 = req.begin_
          · simp [Peer.request, ht, hp, hrb, hi, hg, List.isEmpty_iff]
          · simp [Peer.request, ht, hp, hrb, hi, hg, List.isEmpty_iff]
        · simp [Peer.request, ht, hp, hrb, hi, List.isEmpty_iff]
  · simp [Peer.request, ht]

/-- Witness for claim C4: a matching Piece response with index 1,
offset 2 and block bytes 9, 9 is appended to an empty accumulator. -/
theorem c4_request_witness :
    Peer.request ⟨1, 2, 3⟩ ⟨.piece, [0, 0, 0, 1, 0, 0, 0, 2, 9, 9]⟩ [] = (.ok, [9, 9]) :=
  ((c4_request ⟨1, 2, 3⟩ ⟨.piece, [0, 0, 0, 1, 0, 0, 0, 2, 9, 9]⟩ []).2.2.2
    1 2 [9, 9] rfl rfl).2 rfl rfl

/-- The stable sort of the collector yields a list that is strictly
increasing in piece number whenever the arriving piece numbers are
pairwise distinct. -/
theorem mergeSort_pairwise_lt (l : List DownloadedPiece)
    (hnd : (l.map DownloadedPiece.number).Nodup) :
    (l.mergeSort (fun a b => decide (a.number ≤ b.number))).Pairwise
      (fun a b => a.number < b.number) := by
  have hsor : (l.mergeSort (fun a b => decide (a.number ≤ b.number))).Pairwise
      (fun a b => decide (a.number ≤ b.number) = true) :=
    List.sorted_mergeSort
      (fun a b c h1 h2 => by
        simp only [decide_eq_true_eq] at h1 h2 ⊢; omega)
      (fun a b => by simp only [Bool.or_eq_true, decide_eq_true_eq]; omega) l
  have hmapnd : ((l.mergeSort (fun a b => decide (a.number ≤ b.number))).map
      DownloadedPiece.number).Nodup :=
    (((List.mergeSort_perm l _).map DownloadedPiece.number).nodup_iff).mpr hnd
  have hne : (l.mergeSort (fun a b => decide (a.number ≤ b.number))).Pairwise
      (fun a b => a.number ≠ b.number) := by
    have h2 : ((l.mergeSort (fun a b => decide (a.number ≤ b.number))).map
        DownloadedPiece.number).Pairwise (fun a b => a ≠ b) := hmapnd
    exact List.pairwise_map.mp h2
  exact List.Pairwise.imp₂ (fun a b h1 h2 => by
      simp only [decide_eq_true_eq] at h1; omega) hsor hne

/-- Claim C5: the byte stream produced by the collector is invariant
under permutation of the arrival order of the completed pieces (their
numbers being pairwise distinct), and it is the concatenation of the
block bytes of the pieces arranged in strictly ascending piece-number
order. -/
theorem c5_collector (l1 l2 : List DownloadedPiece) (hperm : l1.Perm l2)
    (hnd : (l1.map DownloadedPiece.number).Nodup) :
    download_pieces_collect l1 = download_pieces_collect l2 ∧
    ∃ s : List DownloadedPiece, s.Perm l1 ∧
      s.Pairwise (fun a b => a.number < b.number) ∧
      download_pieces_collect l1 = flattenBlocks s := by
  have hnd2 : (l2.map DownloadedPiece.number).Nodup :=
    ((hperm.map DownloadedPiece.number).nodup_iff).mp hnd
  have hs1 := mergeSort_pairwise_lt l1 hnd
  have hs2 := mergeSort_pairwise_lt l2 hnd2
  have hp : (l1.mergeSort (fun a b => decide (a.number ≤ b.number))).Perm
      (l2.mergeSort (fun a b => decide (a.number ≤ b.number))) :=
    (List.mergeSort_perm l1 _).trans (hperm.trans (List.mergeSort_perm l2 _).symm)
  haveI : IsAntisymm DownloadedPiece (fun a b => a.number < b.number) :=
    ⟨fun a b h1 h2 => (Nat.lt_asymm h1 h2).elim⟩
  have heq : l1.mergeSort (fun a b => decide (a.number ≤ b.number)) =
      l2.mergeSort (fun a b => decide (a.number ≤ b.number)) :=
    List.eq_of_perm_of_sorted hp hs1 hs2
  refine ⟨?_, l1.mergeSort (fun a b => decide (a.number ≤ b.number)),
    List.mergeSort_perm l1 _, hs1, rfl⟩
  simp only [download_pieces_collect, heq]

/-- Witness for claim C5: two completed pieces arriving in either
order produce the same stream. -/
theorem c5_collector_witness :
    download_pieces_collect [⟨1, [10]⟩, ⟨0, [20]⟩] =
      download_pieces_collect [⟨0, [20]⟩, ⟨1, [10]⟩] :=
  (c5_collector [⟨1, [10]⟩, ⟨0, [20]⟩] [⟨0, [20]⟩, ⟨1, [10]⟩]
    (List.Perm.swap _ _ _) (by decide)).1

/-- Bounds characterizing the ceiling division used for the piece and
block counts. -/
theorem ceil_bounds (pl L : Nat) (hpl : 0 < pl) :
    L ≤ pl * ((L + pl - 1) / pl) ∧ pl * ((L + pl - 1) / pl) ≤ L + pl - 1 := by
  have hd := Nat.div_add_mod (L + pl - 1) pl
  have hm : (L + pl - 1) % pl < pl := Nat.mod_lt _ hpl
  omega

/-- Summing min pl (L - pl * i) over the ceiling count of full chunks
recovers L exactly. -/
theorem sum_min_eq (pl L n : Nat) (hpl : 0 < pl) (h1 : L ≤ pl * n)
    (h2 : pl * n ≤ L + pl - 1) :
    (∑ i ∈ Finset.range n, min pl (L - pl * i)) = L := by
  cases n with
  | zero =>
    simp only [Nat.mul_zero] at h1
    simp
    omega
  | succ m =>
    have hms : pl * (m + 1) = pl * m + pl := by ring
    have hlt : pl * m < L := by omega
    have hconst : ∀ i ∈ Finset.range m, min pl (L - pl * i) = pl := by
      intro i hi
      simp only [Finset.mem_range] at hi
      have e1 : pl * (i + 1) ≤ pl * m := Nat.mul_le_mul_left pl (by omega)
      have e2 : pl * (i + 1) = pl * i + pl := by ring
      rw [Nat.min_def]
      split <;> omega
    rw [Finset.sum_range_succ, Finset.sum_congr rfl hconst, Finset.sum_const,
      Finset.card_range, smul_eq_mul]
    have h3 : m * pl = pl * m := Nat.mul_comm m pl
    rw [Nat.min_def]
    split <;> omega

/-- Claim C6: with pieceLength > 0 and the piece count equal to the
ceiling of totalLength over pieceLength, the piece sizes sum to
totalLength, no piece exceeds pieceLength, every piece before the last
is full-size, the last piece carries the remainder, and when the
remainder is strictly shorter the last index is the unique one whose
size equals it. -/
theorem c6_piece_sizes (L pl n : Nat) (hpl : 0 < pl) (hn : n = (L + pl - 1) / pl) :
    ((∑ i ∈ Finset.range n, piece_size i L pl) = L) ∧
    (∀ i, i < n → piece_size i L pl ≤ pl) ∧
    (∀ i, i + 1 < n → piece_size i L pl = pl) ∧
    (0 < n → piece_size (n - 1) L pl = L - pl * (n - 1)) ∧
    (L % pl ≠ 0 → ∀ i, i < n → (piece_size i L pl = L % pl ↔ i = n - 1)) := by
  obtain ⟨h1, h2⟩ := ceil_bounds pl L hpl
  rw [← hn] at h1 h2
  refine ⟨?_, ?_, ?_, ?_, ?_⟩
  · simpa only [piece_size] using sum_min_eq pl L n hpl h1 h2
  · intro i _
    exact Nat.min_le_left pl _
  · intro i hi
    have e1 : pl * (i + 1) ≤ pl * (n - 1) := Nat.mul_le_mul_left pl (by omega)
    have e2 : pl * (i + 1) = pl * i + pl := by ring
    have e3 : pl * n = pl * (n - 1) + pl := by
      cases n with
      | zero => omega
      | succ k => simp [Nat.mul_succ]
    simp only [piece_size, Nat.min_def]
    split <;> omega
  · intro hn0
    have e3 : pl * n = pl * (n - 1) + pl := by
      cases n with
      | zero => omega
      | succ k => simp [Nat.mul_succ]
    simp only [piece_size, Nat.min_def]
    split <;> omega
  · intro hr i hi
    have hdm := Nat.div_add_mod L pl
    have hml : L % pl < pl := Nat.mod_lt _ hpl
    have hc1 : (L / pl + 1) * pl = pl * (L / pl) + pl := by ring
    have hc2 : (L / pl + 1 + 1) * pl = pl * (L / pl) + pl + pl := by ring
    have hne : n = L / pl + 1 := by
      rw [hn]
      exact Nat.div_eq_of_lt_le (by omega) (by omega)
    constructor
    · intro hps
      by_contra hne2
      have hi2 : i + 1 < n := by omega
      have e1 : pl * (i + 1) ≤ pl * (n - 1) := Nat.mul_le_mul_left pl (by omega)
      have e2 : pl * (i + 1) = pl * i + pl := by ring
      have e3 : pl * n = pl * (n - 1) + pl := by
        cases n with
        | zero => omega
        | succ k => simp [Nat.mul_succ]
      simp only [piece_size, Nat.min_def] at hps
      split at hps <;> omega
    · intro hie
      subst hie
      have hc3 : pl * (n - 1) = pl * (L / pl) := by
        rw [show n - 1 = L / pl by omega]
      simp only [piece_size, Nat.min_def]
      split <;> omega

/-- Witness for claim C6 at totalLength 5, pieceLength 2, 3 pieces. -/
theorem c6_piece_sizes_witness :
    (∑ i ∈ Finset.range 3, piece_size i 5 2) = 5 ∧ piece_size 2 5 2 = 1 := by
  have h := c6_piece_sizes 5 2 3 (by decide) (by decide)
  exact ⟨h.1, by simpa using h.2.2.2.1 (by decide)⟩

/-- Claim C7: for any piece size S, no block of the partition exceeds
16384 bytes, the block count is the ceiling of S over 16384, and the
block sizes sum to exactly S. -/
theorem c7_blocks (S : Nat) :
    (∀ b, b < nblocks S → block_size S b ≤ 16384) ∧
    nblocks S = (S + 16384 - 1) / 16384 ∧
    (∑ b ∈ Finset.range (nblocks S), block_size S b) = S := by
  refine ⟨?_, rfl, ?_⟩
  · intro b _
    exact Nat.min_le_left BLOCK_MAX (S - BLOCK_MAX * b)
  · obtain ⟨h1, h2⟩ := ceil_bounds BLOCK_MAX S (by decide)
    simpa only [block_size] using
      sum_min_eq BLOCK_MAX S (nblocks S) (by decide) h1 h2

/-- Witness for claim C7 at the piece size 20000 (two blocks). -/
theorem c7_blocks_witness :
    block_size 20000 0 ≤ 16384 ∧
    (∑ b ∈ Finset.range (nblocks 20000), block_size 20000 b) = 20000 := by
  have h := c7_blocks 20000
  exact ⟨h.1 0 (by decide), h.2.2⟩

/-- Length and per-entry content of the compact peer decoding, by
induction on a length bound. -/
theorem peersFromBytes_spec : ∀ (m : Nat) (v : List Nat), v.length ≤ m →
    v.length % 6 = 0 →
    (peersFromBytes v).length = v.length / 6 ∧
    ∀ k, k < (peersFromBytes v).length →
      (peersFromBytes v).getD k ⟨0, 0, 0, 0, 0⟩ =
        ⟨(v.drop (6 * k)).getD 0 0, (v.drop (6 * k)).getD 1 0,
         (v.drop (6 * k)).getD 2 0, (v.drop (6 * k)).getD 3 0,
         (v.drop (6 * k)).getD 4 0 * 256 + (v.drop (6 * k)).getD 5 0⟩ := by
  intro m
  induction m with
  | zero =>
    intro v hv h6
    have hnil : v = [] := List.eq_nil_of_length_eq_zero (by omega)
    subst hnil
    simp [peersFromBytes]
  | succ m ih =>
    intro v hv h6
    match v with
    | [] => simp [peersFromBytes]
    | [a] => simp at h6
    | [a, b] => simp at h6
    | [a, b, c] => simp at h6
    | [a, b, c, d] => simp at h6
    | [a, b, c, d, e] => simp at h6
    | a :: b :: c :: d :: e :: f :: rest =>
      have hr6 : rest.length % 6 = 0 := by simp at h6; omega
      have hrm : rest.length ≤ m := by simp at hv; omega
      obtain ⟨ihl, ihg⟩ := ih rest hrm hr6
      constructor
      · simp [peersFromBytes, ihl]
        omega
      · intro k hk
        match k with
        | 0 => simp [peersFromBytes]
        | k + 1 =>
          have hdrop :
              List.drop (6 * (k + 1)) (a :: b :: c :: d :: e :: f :: rest) =
              List.drop (6 * k) rest := by
            rw [show 6 * (k + 1) = 6 + 6 * k by ring, ← List.drop_drop]
            rfl
          have hk2 : k < (peersFromBytes rest).length := by
            simp [peersFromBytes] at hk
            omega
          have hrec := ihg k hk2
          simp only [peersFromBytes, List.getD_cons_succ, hdrop]
          exact hrec

/-- Claim C8: the compact peers decoder fails exactly when the byte
length is not a multiple of six; otherwise it yields one peer per
consecutive 6-byte entry, the IPv4 octets from the first four bytes of
the entry and the port from the last two as a big-endian 16-bit
value. -/
theorem c8_peers_decode (v : List Nat) :
    (visit_bytes v = none ↔ v.length % 6 ≠ 0) ∧
    (v.length % 6 = 0 →
      ∃ ps, visit_bytes v = some ps ∧ ps.length = v.length / 6 ∧
        ∀ k, k < ps.length →
          ps.getD k ⟨0, 0, 0, 0, 0⟩ =
            ⟨(v.drop (6 * k)).getD 0 0, (v.drop (6 * k)).getD 1 0,
             (v.drop (6 * k)).getD 2 0, (v.drop (6 * k)).getD 3 0,
             (v.drop (6 * k)).getD 4 0 * 256 + (v.drop (6 * k)).getD 5 0⟩) := by
  constructor
  · by_cases h : v.length % 6 = 0 <;> simp [visit_bytes, h]
  · intro h
    obtain ⟨hl, hg⟩ := peersFromBytes_spec v.length v le_rfl h
    exact ⟨peersFromBytes v, by simp [visit_bytes, h], hl, hg⟩

/-- Witness for claim C8: a 3-byte input is rejected and a 6-byte
input decodes. -/
theorem c8_peers_decode_witness :
    visit_bytes [1, 2, 3] = none ∧
    (visit_bytes [127, 0, 0, 1, 31, 144]).isSome = true := by
  refine ⟨(c8_peers_decode [1, 2, 3]).1.mpr (by decide), ?_⟩
  obtain ⟨ps, hps, -, -⟩ := (c8_peers_decode [127, 0, 0, 1, 31, 144]).2 (by decide)
  simp [hps]

/-- Serializing the decoded compact peer list reproduces the input
bytes, by induction on a length bound. -/
theorem serialize_peersFromBytes : ∀ (m : Nat) (v : List Nat), v.length ≤ m →
    v.length % 6 = 0 → (∀ x ∈ v, x < 256) →
    Peers.serialize (peersFromBytes v) = v := by
  intro m
  induction m with
  | zero =>
    intro v hv _ _
    have hnil : v = [] := List.eq_nil_of_length_eq_zero (by omega)
    subst hnil
    rfl
  | succ m ih =>
    intro v hv h6 hb
    match v with
    | [] => rfl
    | [a] => simp at h6
    | [a, b] => simp at h6
    | [a, b, c] => simp at h6
    | [a, b, c, d] => simp at h6
    | [a, b, c, d, e] => simp at h6
    | a :: b :: c :: d :: e :: f :: rest =>
      have hr6 : rest.length % 6 = 0 := by simp at h6; omega
      have hrm : rest.length ≤ m := by simp at hv; omega
      have hbr : ∀ x ∈ rest, x < 256 := fun x hx => hb x (by simp [hx])
      have he : e < 256 := hb e (by simp)
      have hf : f < 256 := hb f (by simp)
      have ihh := ih rest hrm hr6 hbr
      simp [peersFromBytes, Peers.serialize, ihh]
      omega

/-- Claim C10: deserializing a compact peer byte sequence (length a
multiple of six, bytes in range) and serializing the result is the
identity on the byte sequence. -/
theorem c10_roundtrip (v : List Nat) (h6 : v.length % 6 = 0)
    (hb : ∀ x ∈ v, x < 256) :
    ∃ ps, visit_bytes v = some ps ∧ Peers.serialize ps = v :=
  ⟨peersFromBytes v, by simp [visit_bytes, h6],
    serialize_peersFromBytes v.length v le_rfl h6 hb⟩

/-- Witness for claim C10 at one concrete 6-byte entry. -/
theorem c10_roundtrip_witness :
    visit_bytes [127, 0, 0, 1, 31, 144] = some [⟨127, 0, 0, 1, 8080⟩] ∧
    Peers.serialize [⟨127, 0, 0, 1, 8080⟩] = [127, 0, 0, 1, 31, 144] := by
  obtain ⟨ps, h1, h2⟩ := c10_roundtrip [127, 0, 0, 1, 31, 144] (by decide) (by decide)
  have hvb : visit_bytes [127, 0, 0, 1, 31, 144] = some [(⟨127, 0, 0, 1, 8080⟩ : SocketAddrV4)] := rfl
  have hps : ps = [⟨127, 0, 0, 1, 8080⟩] := Option.some.inj (h1.symm.trans hvb)
  rw [hps] at h1 h2
  exact ⟨h1, h2⟩

